import Mathlib

/-!
# Verification of the BFS/DFS traversal engine of `SD23039_Lab1.py`

This file gives a shallow embedding of the traversal engine of the
repository: the fixture graph `LAB1_GRAPH`, the node universe
(`get_all_nodes`), and the two traced traversal algorithms
`breadth_first_search` and `depth_first_search`, together with proofs of
the specification claims about them.

The embedding conventions:
* a Python dict `Dict[str, List[str]]` becomes an association list
  `List (String × List String)`; `graph.get(node, [])` becomes a lookup
  with default `[]`;
* Python's `set` of strings becomes `Finset String`;
* Python's `sorted` on strings becomes a structurally recursive sort by
  the lexicographic comparison on the underlying character lists
  (`charListLt`), which is exactly Python's string ordering; since the
  order is total and equal strings are identical, the sorted arrangement
  of a list is unique, so this is exactly the list Python's `sorted`
  returns;
* the `while` loops run on explicit fuel; the fuel bound
  `totalFuel` is proved sufficient (the frontier empties), which is the
  termination statement for the loops.
-/

/-- Lexicographic strict comparison of character lists, as Python compares
strings: compare elementwise, a strict prefix is smaller. -/
def charListLt : List Char → List Char → Bool
  | [], [] => false
  | [], _ :: _ => true
  | _ :: _, [] => false
  | a :: as, b :: bs => if a = b then charListLt as bs else decide (a < b)

/-- Python's `x < y` on strings. -/
def strLt (a b : String) : Bool := charListLt a.data b.data

/-- Python's `x <= y` on strings (total order: `a ≤ b ↔ ¬ b < a`). -/
def strLe (a b : String) : Bool := ! charListLt b.data a.data

/-- Insert `a` into a list sorted by `le`, before the first element that
`a` compares no larger than. -/
def insertSorted (le : String → String → Bool) (a : String) : List String → List String
  | [] => [a]
  | b :: bs => if le a b then a :: b :: bs else b :: insertSorted le a bs

/-- Insertion sort by the comparison `le`. -/
def sortBy (le : String → String → Bool) : List String → List String
  | [] => []
  | a :: as => insertSorted le a (sortBy le as)

/-- Python's `sorted(l)` on lists of strings (ascending). -/
def sortAsc (l : List String) : List String := sortBy strLe l

/-- Python's `sorted(l, reverse=True)` on lists of strings (descending). -/
def sortDesc (l : List String) : List String := sortBy (fun a b => strLe b a) l

/-- A directed graph: an association list from a node to its ordered
neighbor list, embedding the Python dict `Dict[str, List[str]]`. -/
abbrev Graph := List (String × List String)

/-- `graph.get(node, [])` from the source: the adjacency list of `node`,
or `[]` when `node` is not a key. -/
def neighbors (g : Graph) (node : String) : List String :=
  (g.lookup node).getD []

/-- `get_all_nodes` from the source: all unique nodes (keys and neighbor
values), sorted. -/
def get_all_nodes (g : Graph) : List String :=
  sortAsc ((g.map Prod.fst ++ (g.map Prod.snd).flatten).dedup)

/-- The node universe of a graph as a finite set: every key and every
neighbor value. -/
def nodeUniverse (g : Graph) : Finset String :=
  (get_all_nodes g).toFinset

/-- The fixture graph `LAB1_GRAPH` from the source. -/
def LAB1_GRAPH : Graph :=
  [("A", ["D", "B"]),
   ("B", ["C", "E", "G"]),
   ("C", ["A"]),
   ("D", ["C"]),
   ("E", ["H"]),
   ("F", []),
   ("G", ["F"]),
   ("H", ["G", "F"])]

/-- One trace snapshot, embedding the dict appended to `trace` in the
source: the node just expanded, the frontier after removing it, the
visited set so far, and the arrow-joined process path. -/
structure TraceStep where
  expanded : String
  frontier : List String
  visited : Finset String
  process_path : String
  deriving DecidableEq

/-- The default snapshot used with `List.getD` in statements. -/
def emptyStep : TraceStep := ⟨"", [], ∅, ""⟩

/-- Python's `" → ".join(l)`. -/
def joinArrow (l : List String) : String := String.intercalate " → " l

/-- The state of a traversal loop: the frontier (queue or stack, storage
order), the visited set, the expansion order so far and the trace so far. -/
structure SearchState where
  frontier : List String
  visited : Finset String
  expanded : List String
  trace : List TraceStep

/-- The neighbor-processing loop shared by both algorithms
(`for neighbor in neighbors: if neighbor not in visited: add; append`):
returns the final visited set and the frontier with the newly discovered
nodes appended at the end. -/
def discover : List String → Finset String → List String → Finset String × List String
  | [], v, f => (v, f)
  | n :: ns, v, f =>
    if n ∈ v then discover ns v f else discover ns (insert n v) (f ++ [n])

/-- One iteration of the BFS `while` loop, applied after `node` has been
popped from the head of the queue (`rest` is the remaining queue). -/
def bfsStep (g : Graph) (node : String) (rest : List String)
    (v : Finset String) (e : List String) (t : List TraceStep) : SearchState :=
  let e' := e ++ [node]
  let snap : TraceStep := ⟨node, rest, v, joinArrow e'⟩
  let d := discover (sortAsc (neighbors g node)) v rest
  ⟨d.2, d.1, e', t ++ [snap]⟩

/-- One iteration of the DFS `while` loop, applied after `node` has been
popped from the top (end) of the stack (`rest` is the remaining stack in
storage order); the snapshot shows the stack top first (`stack[::-1]`). -/
def dfsStep (g : Graph) (node : String) (rest : List String)
    (v : Finset String) (e : List String) (t : List TraceStep) : SearchState :=
  let e' := e ++ [node]
  let snap : TraceStep := ⟨node, rest.reverse, v, joinArrow e'⟩
  let d := discover (sortDesc (neighbors g node)) v rest
  ⟨d.2, d.1, e', t ++ [snap]⟩

/-- The BFS `while queue:` loop on explicit fuel; each unit of fuel runs
one iteration (popping from the head of the queue). -/
def bfsAux (g : Graph) : Nat → SearchState → SearchState
  | 0, s => s
  | _ + 1, ⟨[], v, e, t⟩ => ⟨[], v, e, t⟩
  | n + 1, ⟨node :: rest, v, e, t⟩ => bfsAux g n (bfsStep g node rest v e t)

/-- The DFS `while stack:` loop on explicit fuel; each unit of fuel runs
one iteration (popping from the end of the stack). -/
def dfsAux (g : Graph) : Nat → SearchState → SearchState
  | 0, s => s
  | _ + 1, ⟨[], v, e, t⟩ => ⟨[], v, e, t⟩
  | n + 1, ⟨x :: xs, v, e, t⟩ =>
    dfsAux g n
      (dfsStep g ((x :: xs).getLast (List.cons_ne_nil x xs)) ((x :: xs).dropLast) v e t)

/-- The initial loop state: frontier `[start]`, visited `{start}`. -/
def initState (start : String) : SearchState := ⟨[start], {start}, [], []⟩

/-- Fuel sufficient for the whole traversal: one unit per node that can
ever be enqueued (every node of the universe, plus the start node). -/
def totalFuel (g : Graph) (start : String) : Nat :=
  (insert start (nodeUniverse g)).card

/-- The BFS loop state after `n` iterations from the initial state. -/
def bfsStateAfter (g : Graph) (start : String) (n : Nat) : SearchState :=
  bfsAux g n (initState start)

/-- The DFS loop state after `n` iterations from the initial state. -/
def dfsStateAfter (g : Graph) (start : String) (n : Nat) : SearchState :=
  dfsAux g n (initState start)

/-- The final BFS loop state. -/
def bfsFinal (g : Graph) (start : String) : SearchState :=
  bfsStateAfter g start (totalFuel g start)

/-- The final DFS loop state. -/
def dfsFinal (g : Graph) (start : String) : SearchState :=
  dfsStateAfter g start (totalFuel g start)

/-- `breadth_first_search` from the source: the expansion order and the
trace. -/
def breadth_first_search (g : Graph) (start : String) :
    List String × List TraceStep :=
  ((bfsFinal g start).expanded, (bfsFinal g start).trace)

/-- `depth_first_search` from the source: the expansion order and the
trace. -/
def depth_first_search (g : Graph) (start : String) :
    List String × List TraceStep :=
  ((dfsFinal g start).expanded, (dfsFinal g start).trace)

/-- Reachability along directed edges of the graph (reflexive-transitive
closure of the successor relation). -/
def Reachable (g : Graph) (a b : String) : Prop :=
  Relation.ReflTransGen (fun u w => w ∈ neighbors g u) a b

/-- The unvisited neighbors of a node, in adjacency-list order: exactly
the nodes the traversal would newly discover when expanding `node`. -/
def unvisitedNeighbors (g : Graph) (node : String) (v : Finset String) : List String :=
  (neighbors g node).filter (fun c => decide (c ∉ v))

/-! ## Properties of the string comparison -/

lemma charListLt_irrefl : ∀ l : List Char, charListLt l l = false
  | [] => rfl
  | a :: as => by simp [charListLt, charListLt_irrefl as]

lemma charListLt_asymm : ∀ l m : List Char,
    charListLt l m = true → charListLt m l = false := by
  intro l
  induction l with
  | nil =>
    intro m _
    cases m with
    | nil => rfl
    | cons b bs => simp [charListLt]
  | cons a as ih =>
    intro m h
    cases m with
    | nil => simp [charListLt] at h
    | cons b bs =>
      by_cases hab : a = b
      · subst hab
        simp only [charListLt, if_pos rfl] at h ⊢
        exact ih bs h
      · have hba : b ≠ a := fun e => hab e.symm
        simp only [charListLt, if_neg hab, decide_eq_true_iff] at h
        simp only [charListLt, if_neg hba, decide_eq_false_iff_not]
        exact lt_asymm h

lemma charListLt_conn : ∀ l m : List Char,
    charListLt l m = false → charListLt m l = false → l = m := by
  intro l
  induction l with
  | nil =>
    intro m h1 _
    cases m with
    | nil => rfl
    | cons b bs => simp [charListLt] at h1
  | cons a as ih =>
    intro m h1 h2
    cases m with
    | nil => simp [charListLt] at h2
    | cons b bs =>
      by_cases hab : a = b
      · subst hab
        simp only [charListLt, if_pos rfl] at h1 h2
        rw [ih bs h1 h2]
      · have hba : b ≠ a := fun e => hab e.symm
        simp only [charListLt, if_neg hab, decide_eq_false_iff_not, not_lt] at h1
        simp only [charListLt, if_neg hba, decide_eq_false_iff_not, not_lt] at h2
        exact absurd (le_antisymm h2 h1) hab

lemma charListLt_trans : ∀ l m n : List Char,
    charListLt l m = true → charListLt m n = true → charListLt l n = true := by
  intro l
  induction l with
  | nil =>
    intro m n h1 h2
    cases m with
    | nil => simp [charListLt] at h1
    | cons b bs =>
      cases n with
      | nil => simp [charListLt] at h2
      | cons c cs => simp [charListLt]
  | cons a as ih =>
    intro m n h1 h2
    cases m with
    | nil => simp [charListLt] at h1
    | cons b bs =>
      cases n with
      | nil => simp [charListLt] at h2
      | cons c cs =>
        by_cases hab : a = b
        · subst hab
          by_cases hac : a = c
          · subst hac
            simp only [charListLt, if_pos rfl] at h1 h2 ⊢
            exact ih bs cs h1 h2
          · simp only [charListLt, if_neg hac] at h2 ⊢
            exact h2
        · by_cases hbc : b = c
          · subst hbc
            simp only [charListLt, if_neg hab] at h1 ⊢
            exact h1
          · simp only [charListLt, if_neg hab, decide_eq_true_iff] at h1
            simp only [charListLt, if_neg hbc, decide_eq_true_iff] at h2
            have hac : a < c := lt_trans h1 h2
            simp only [charListLt, if_neg (ne_of_lt hac), decide_eq_true_iff]
            exact hac

lemma strLe_trans (a b c : String) (h1 : strLe a b = true) (h2 : strLe b c = true) :
    strLe a c = true := by
  simp only [strLe, Bool.not_eq_true'] at h1 h2 ⊢
  by_cases hca : charListLt c.data a.data = true
  · by_cases hab : charListLt a.data b.data = true
    · have := charListLt_trans _ _ _ hca hab
      rw [this] at h2
      exact absurd h2 (by simp)
    · have hEq : a.data = b.data :=
        charListLt_conn _ _ (by simpa using hab) h1
      rw [← hEq] at h2
      rw [h2] at hca
      exact absurd hca (by simp)
  · simpa using hca

lemma strLe_total (a b : String) : (strLe a b || strLe b a) = true := by
  simp only [strLe, Bool.or_eq_true, Bool.not_eq_true']
  by_cases h : charListLt b.data a.data = true
  · exact Or.inr (charListLt_asymm _ _ h)
  · exact Or.inl (by simpa using h)

lemma strLt_ne {x y : String} (h : strLt x y = true) : x ≠ y := by
  intro e
  subst e
  rw [strLt, charListLt_irrefl] at h
  exact absurd h (by simp)

lemma strLe_of_flip_false {x y : String} (h : strLt x y = true) :
    strLe y x = false := by
  simp only [strLe, Bool.not_eq_false']
  exact h

/-! ## Properties of the sorting wrappers -/

lemma mem_insertSorted (le : String → String → Bool) (a x : String) :
    ∀ l : List String, x ∈ insertSorted le a l ↔ x = a ∨ x ∈ l := by
  intro l
  induction l with
  | nil => simp [insertSorted]
  | cons b bs ih =>
    by_cases h : le a b = true
    · simp [insertSorted, h]
    · simp only [insertSorted, if_neg h, List.mem_cons, ih]
      tauto

lemma mem_sortBy (le : String → String → Bool) (x : String) :
    ∀ l : List String, x ∈ sortBy le l ↔ x ∈ l := by
  intro l
  induction l with
  | nil => simp [sortBy]
  | cons a as ih => simp [sortBy, mem_insertSorted, ih]

lemma pairwise_insertSorted (le : String → String → Bool)
    (htrans : ∀ a b c, le a b = true → le b c = true → le a c = true)
    (htot : ∀ a b, (le a b || le b a) = true) (a : String) :
    ∀ l : List String, l.Pairwise (fun u w => le u w = true) →
      (insertSorted le a l).Pairwise (fun u w => le u w = true) := by
  intro l
  induction l with
  | nil => intro _; simp [insertSorted]
  | cons b bs ih =>
    intro hp
    have hbp := List.pairwise_cons.mp hp
    by_cases h : le a b = true
    · rw [insertSorted, if_pos h]
      refine List.pairwise_cons.mpr ⟨?_, hp⟩
      intro z hz
      rcases List.mem_cons.mp hz with rfl | hz
      · exact h
      · exact htrans a b z h (hbp.1 z hz)
    · rw [insertSorted, if_neg h]
      have hba : le b a = true := by
        have h2 := htot a b
        rw [Bool.not_eq_true] at h
        rw [h, Bool.false_or] at h2
        exact h2
      refine List.pairwise_cons.mpr ⟨?_, ih hbp.2⟩
      intro z hz
      rcases (mem_insertSorted le a z bs).mp hz with rfl | hz
      · exact hba
      · exact hbp.1 z hz

lemma pairwise_sortBy (le : String → String → Bool)
    (htrans : ∀ a b c, le a b = true → le b c = true → le a c = true)
    (htot : ∀ a b, (le a b || le b a) = true) :
    ∀ l : List String, (sortBy le l).Pairwise (fun u w => le u w = true) := by
  intro l
  induction l with
  | nil => simp [sortBy]
  | cons a as ih => exact pairwise_insertSorted le htrans htot a _ ih

lemma mem_sortAsc {x : String} {l : List String} : x ∈ sortAsc l ↔ x ∈ l :=
  mem_sortBy strLe x l

lemma mem_sortDesc {x : String} {l : List String} : x ∈ sortDesc l ↔ x ∈ l :=
  mem_sortBy _ x l

lemma sortAsc_pairwise (l : List String) :
    (sortAsc l).Pairwise (fun a b => strLe a b = true) :=
  pairwise_sortBy strLe strLe_trans strLe_total l

lemma sortDesc_pairwise (l : List String) :
    (sortDesc l).Pairwise (fun a b => strLe b a = true) :=
  pairwise_sortBy _ (fun a b c hab hbc => strLe_trans c b a hbc hab)
    (fun a b => by rw [Bool.or_comm]; exact strLe_total a b) l

/-! ## Properties of the neighbor-processing loop -/

/-- The nodes newly appended to the frontier when processing neighbor list
`ns` against visited set `v`. -/
def pushed (ns : List String) (v : Finset String) : List String :=
  (discover ns v []).2

/-- The visited set after processing neighbor list `ns` against visited
set `v`. -/
def visitedAfter (ns : List String) (v : Finset String) : Finset String :=
  (discover ns v []).1

lemma discover_fst : ∀ (ns : List String) (v : Finset String) (f : List String),
    (discover ns v f).1 = visitedAfter ns v := by
  intro ns
  induction ns with
  | nil => intro v f; rfl
  | cons n ns ih =>
    intro v f
    by_cases h : n ∈ v
    · simp only [discover, visitedAfter, if_pos h]
      rw [ih, ih]
    · simp only [discover, visitedAfter, if_neg h]
      rw [ih, ih]

lemma discover_snd : ∀ (ns : List String) (v : Finset String) (f : List String),
    (discover ns v f).2 = f ++ pushed ns v := by
  intro ns
  induction ns with
  | nil => intro v f; simp [discover, pushed]
  | cons n ns ih =>
    intro v f
    by_cases h : n ∈ v
    · simp only [discover, pushed, if_pos h]
      rw [ih, ih v []]
      simp
    · simp only [discover, pushed, if_neg h]
      rw [ih, ih (insert n v) ([] ++ [n])]
      simp

lemma pushed_cons_mem {n : String} {ns : List String} {v : Finset String}
    (h : n ∈ v) : pushed (n :: ns) v = pushed ns v := by
  simp [pushed, discover, h]

lemma pushed_cons_not_mem {n : String} {ns : List String} {v : Finset String}
    (h : n ∉ v) : pushed (n :: ns) v = n :: pushed ns (insert n v) := by
  simp only [pushed, discover, if_neg h]
  rw [discover_snd]
  simp [pushed]

lemma visitedAfter_cons_mem {n : String} {ns : List String} {v : Finset String}
    (h : n ∈ v) : visitedAfter (n :: ns) v = visitedAfter ns v := by
  simp [visitedAfter, discover, h]

lemma visitedAfter_cons_not_mem {n : String} {ns : List String} {v : Finset String}
    (h : n ∉ v) : visitedAfter (n :: ns) v = visitedAfter ns (insert n v) := by
  simp only [visitedAfter, discover, if_neg h]
  rw [discover_fst]
  rfl

lemma mem_pushed : ∀ (ns : List String) (v : Finset String) (x : String),
    x ∈ pushed ns v ↔ x ∈ ns ∧ x ∉ v := by
  intro ns
  induction ns with
  | nil => intro v x; simp [pushed, discover]
  | cons n ns ih =>
    intro v x
    by_cases h : n ∈ v
    · rw [pushed_cons_mem h, ih]
      constructor
      · rintro ⟨hx, hv⟩
        exact ⟨List.mem_cons_of_mem n hx, hv⟩
      · rintro ⟨hx, hv⟩
        rcases List.mem_cons.mp hx with rfl | hx
        · exact absurd h hv
        · exact ⟨hx, hv⟩
    · rw [pushed_cons_not_mem h]
      simp only [List.mem_cons, ih, Finset.mem_insert]
      constructor
      · rintro (rfl | ⟨hx, hv⟩)
        · exact ⟨Or.inl rfl, h⟩
        · exact ⟨Or.inr hx, fun hxv => hv (Or.inr hxv)⟩
      · rintro ⟨rfl | hx, hv⟩
        · exact Or.inl rfl
        · by_cases hxn : x = n
          · exact Or.inl hxn
          · exact Or.inr ⟨hx, fun hins => by
              rcases hins with hins | hins
              · exact hxn hins
              · exact hv hins⟩

lemma pushed_nodup : ∀ (ns : List String) (v : Finset String),
    (pushed ns v).Nodup := by
  intro ns
  induction ns with
  | nil => intro v; simp [pushed, discover]
  | cons n ns ih =>
    intro v
    by_cases h : n ∈ v
    · rw [pushed_cons_mem h]; exact ih v
    · rw [pushed_cons_not_mem h]
      refine List.nodup_cons.mpr ⟨?_, ih (insert n v)⟩
      intro hmem
      exact ((mem_pushed _ _ _).mp hmem).2 (Finset.mem_insert_self n v)

lemma pushed_sublist : ∀ (ns : List String) (v : Finset String),
    List.Sublist (pushed ns v) ns := by
  intro ns
  induction ns with
  | nil => intro v; simp [pushed, discover]
  | cons n ns ih =>
    intro v
    by_cases h : n ∈ v
    · rw [pushed_cons_mem h]; exact (ih v).cons n
    · rw [pushed_cons_not_mem h]; exact (ih (insert n v)).cons₂ n

lemma mem_visitedAfter : ∀ (ns : List String) (v : Finset String) (x : String),
    x ∈ visitedAfter ns v ↔ x ∈ v ∨ x ∈ pushed ns v := by
  intro ns
  induction ns with
  | nil => intro v x; simp [visitedAfter, discover, pushed]
  | cons n ns ih =>
    intro n' x
    by_cases h : n ∈ n'
    · rw [visitedAfter_cons_mem h, pushed_cons_mem h, ih]
    · rw [visitedAfter_cons_not_mem h, pushed_cons_not_mem h, ih]
      simp only [Finset.mem_insert, List.mem_cons]
      tauto

lemma subset_visitedAfter (ns : List String) (v : Finset String) :
    v ⊆ visitedAfter ns v :=
  fun x hx => (mem_visitedAfter ns v x).mpr (Or.inl hx)

lemma card_visitedAfter : ∀ (ns : List String) (v : Finset String),
    (visitedAfter ns v).card = v.card + (pushed ns v).length := by
  intro ns
  induction ns with
  | nil => intro v; simp [visitedAfter, discover, pushed]
  | cons n ns ih =>
    intro v
    by_cases h : n ∈ v
    · rw [visitedAfter_cons_mem h, pushed_cons_mem h, ih]
    · rw [visitedAfter_cons_not_mem h, pushed_cons_not_mem h, ih,
        Finset.card_insert_of_not_mem h]
      simp only [List.length_cons]
      omega

/-- A nodup list whose members are exactly two distinct elements is one of
the two orderings of the pair. -/
lemma nodup_pair_eq {l : List String} {x y : String} (hnd : l.Nodup)
    (hmem : ∀ c, c ∈ l ↔ c = x ∨ c = y) (hne : x ≠ y) :
    l = [x, y] ∨ l = [y, x] := by
  have hfin : l.toFinset = {x, y} := by
    ext c
    simp only [List.mem_toFinset, hmem, Finset.mem_insert, Finset.mem_singleton]
  have hlen : l.length = 2 := by
    have h1 : l.toFinset.card = l.length := List.toFinset_card_of_nodup hnd
    rw [hfin] at h1
    rw [← h1, Finset.card_insert_of_not_mem (by simp [hne]), Finset.card_singleton]
  obtain ⟨a, b, rfl⟩ := List.length_eq_two.mp hlen
  have hab : a ≠ b := by
    have := List.nodup_cons.mp hnd
    simp only [List.mem_cons, List.mem_singleton] at this
    exact fun e => this.1 (by simp [e])
  have ha : a = x ∨ a = y := (hmem a).mp (by simp)
  have hb : b = x ∨ b = y := (hmem b).mp (by simp)
  rcases ha with rfl | rfl
  · rcases hb with rfl | rfl
    · exact absurd rfl hab
    · exact Or.inl rfl
  · rcases hb with rfl | rfl
    · exact Or.inr rfl
    · exact absurd rfl hab

/-! ## Equations and basic properties of the traversal loops -/

lemma bfsStep_eq (g : Graph) (node : String) (rest : List String)
    (v : Finset String) (e : List String) (t : List TraceStep) :
    bfsStep g node rest v e t =
      ⟨rest ++ pushed (sortAsc (neighbors g node)) v,
       visitedAfter (sortAsc (neighbors g node)) v,
       e ++ [node],
       t ++ [⟨node, rest, v, joinArrow (e ++ [node])⟩]⟩ := by
  simp only [bfsStep, discover_fst, discover_snd]

lemma dfsStep_eq (g : Graph) (node : String) (rest : List String)
    (v : Finset String) (e : List String) (t : List TraceStep) :
    dfsStep g node rest v e t =
      ⟨rest ++ pushed (sortDesc (neighbors g node)) v,
       visitedAfter (sortDesc (neighbors g node)) v,
       e ++ [node],
       t ++ [⟨node, rest.reverse, v, joinArrow (e ++ [node])⟩]⟩ := by
  simp only [dfsStep, discover_fst, discover_snd]

lemma bfsAux_zero (g : Graph) (s : SearchState) : bfsAux g 0 s = s := rfl

lemma bfsAux_succ_nil (g : Graph) (n : Nat) (v : Finset String)
    (e : List String) (t : List TraceStep) :
    bfsAux g (n + 1) ⟨[], v, e, t⟩ = ⟨[], v, e, t⟩ := rfl

lemma bfsAux_succ_cons (g : Graph) (n : Nat) (node : String) (rest : List String)
    (v : Finset String) (e : List String) (t : List TraceStep) :
    bfsAux g (n + 1) ⟨node :: rest, v, e, t⟩ = bfsAux g n (bfsStep g node rest v e t) := rfl

lemma dfsAux_zero (g : Graph) (s : SearchState) : dfsAux g 0 s = s := rfl

lemma dfsAux_succ_nil (g : Graph) (n : Nat) (v : Finset String)
    (e : List String) (t : List TraceStep) :
    dfsAux g (n + 1) ⟨[], v, e, t⟩ = ⟨[], v, e, t⟩ := rfl

lemma getLast_append_singleton : ∀ (l : List String) (a : String) (h : l ++ [a] ≠ []),
    (l ++ [a]).getLast h = a := by
  intro l
  induction l with
  | nil => intro a h; rfl
  | cons b bs ih =>
    intro a h
    exact List.getLast_concat (b :: bs)

lemma dfsAux_succ_concat (g : Graph) (n : Nat) (q : List String) (node : String)
    (v : Finset String) (e : List String) (t : List TraceStep) :
    dfsAux g (n + 1) ⟨q ++ [node], v, e, t⟩ = dfsAux g n (dfsStep g node q v e t) := by
  cases q with
  | nil => rfl
  | cons a as =>
    show dfsAux g n (dfsStep g ((a :: (as ++ [node])).getLast (List.cons_ne_nil _ _))
        ((a :: (as ++ [node])).dropLast) v e t) = dfsAux g n (dfsStep g node (a :: as) v e t)
    have h1 : (a :: (as ++ [node])).getLast (List.cons_ne_nil _ _) = node :=
      getLast_append_singleton (a :: as) node (by simp)
    have h2 : (a :: (as ++ [node])).dropLast = a :: as := by
      show ((a :: as) ++ [node]).dropLast = a :: as
      exact List.dropLast_concat
    rw [h1, h2]

lemma bfsAux_nil_frontier (g : Graph) (n : Nat) (v : Finset String)
    (e : List String) (t : List TraceStep) :
    bfsAux g n ⟨[], v, e, t⟩ = ⟨[], v, e, t⟩ := by
  cases n with
  | zero => rfl
  | succ m => rfl

lemma dfsAux_nil_frontier (g : Graph) (n : Nat) (v : Finset String)
    (e : List String) (t : List TraceStep) :
    dfsAux g n ⟨[], v, e, t⟩ = ⟨[], v, e, t⟩ := by
  cases n with
  | zero => rfl
  | succ m => rfl

lemma bfsAux_add (g : Graph) : ∀ (a b : Nat) (s : SearchState),
    bfsAux g (a + b) s = bfsAux g b (bfsAux g a s) := by
  intro a
  induction a with
  | zero => intro b s; rw [Nat.zero_add, bfsAux_zero]
  | succ a ih =>
    intro b s
    obtain ⟨fr, v, e, t⟩ := s
    have harith : a + 1 + b = (a + b) + 1 := by omega
    cases fr with
    | nil =>
      rw [harith, bfsAux_succ_nil, bfsAux_succ_nil, bfsAux_nil_frontier]
    | cons node rest =>
      rw [harith, bfsAux_succ_cons, bfsAux_succ_cons, ih]

lemma dfsAux_add (g : Graph) : ∀ (a b : Nat) (s : SearchState),
    dfsAux g (a + b) s = dfsAux g b (dfsAux g a s) := by
  intro a
  induction a with
  | zero => intro b s; rw [Nat.zero_add, dfsAux_zero]
  | succ a ih =>
    intro b s
    obtain ⟨fr, v, e, t⟩ := s
    have harith : a + 1 + b = (a + b) + 1 := by omega
    rcases List.eq_nil_or_concat fr with rfl | ⟨q, node, rfl⟩
    · rw [harith, dfsAux_succ_nil, dfsAux_succ_nil, dfsAux_nil_frontier]
    · rw [List.concat_eq_append] at *
      rw [harith, dfsAux_succ_concat, dfsAux_succ_concat, ih]

lemma bfsAux_visited_mono (g : Graph) : ∀ (n : Nat) (s : SearchState),
    s.visited ⊆ (bfsAux g n s).visited := by
  intro n
  induction n with
  | zero => intro s; exact subset_rfl
  | succ n ih =>
    intro s
    obtain ⟨fr, v, e, t⟩ := s
    cases fr with
    | nil => rw [bfsAux_succ_nil]
    | cons node rest =>
      rw [bfsAux_succ_cons, bfsStep_eq]
      intro x hx
      exact ih _ (subset_visitedAfter _ _ hx)

lemma dfsAux_visited_mono (g : Graph) : ∀ (n : Nat) (s : SearchState),
    s.visited ⊆ (dfsAux g n s).visited := by
  intro n
  induction n with
  | zero => intro s; exact subset_rfl
  | succ n ih =>
    intro s
    obtain ⟨fr, v, e, t⟩ := s
    rcases List.eq_nil_or_concat fr with rfl | ⟨q, node, rfl⟩
    · rw [dfsAux_succ_nil]
    · rw [List.concat_eq_append, dfsAux_succ_concat, dfsStep_eq]
      intro x hx
      exact ih _ (subset_visitedAfter _ _ hx)

lemma bfsAux_future (g : Graph) : ∀ (n : Nat) (s : SearchState),
    (bfsAux g n s).frontier = [] →
      ∃ tl, (bfsAux g n s).expanded = s.expanded ++ tl ∧ ∀ x ∈ s.frontier, x ∈ tl := by
  intro n
  induction n with
  | zero =>
    intro s h
    rw [bfsAux_zero] at *
    refine ⟨[], by simp, ?_⟩
    intro x hx
    rw [h] at hx
    simp at hx
  | succ n ih =>
    intro s h
    obtain ⟨fr, v, e, t⟩ := s
    cases fr with
    | nil =>
      refine ⟨[], by simp [bfsAux_succ_nil], ?_⟩
      intro x hx
      simp at hx
    | cons node rest =>
      rw [bfsAux_succ_cons, bfsStep_eq] at h ⊢
      obtain ⟨tl, htl, hmem⟩ := ih _ h
      refine ⟨node :: tl, ?_, ?_⟩
      · rw [htl]
        simp
      · intro x hx
        rcases List.mem_cons.mp hx with rfl | hx
        · exact List.mem_cons_self x tl
        · exact List.mem_cons_of_mem node
            (hmem x (show x ∈ rest ++ _ from List.mem_append.mpr (Or.inl hx)))

lemma dfsAux_future (g : Graph) : ∀ (n : Nat) (s : SearchState),
    (dfsAux g n s).frontier = [] →
      ∃ tl, (dfsAux g n s).expanded = s.expanded ++ tl ∧ ∀ x ∈ s.frontier, x ∈ tl := by
  intro n
  induction n with
  | zero =>
    intro s h
    rw [dfsAux_zero] at *
    refine ⟨[], by simp, ?_⟩
    intro x hx
    rw [h] at hx
    simp at hx
  | succ n ih =>
    intro s h
    obtain ⟨fr, v, e, t⟩ := s
    rcases List.eq_nil_or_concat fr with rfl | ⟨q, node, rfl⟩
    · refine ⟨[], by simp [dfsAux_succ_nil], ?_⟩
      intro x hx
      simp at hx
    · rw [List.concat_eq_append] at *
      rw [dfsAux_succ_concat, dfsStep_eq] at h ⊢
      obtain ⟨tl, htl, hmem⟩ := ih _ h
      refine ⟨node :: tl, ?_, ?_⟩
      · rw [htl]
        simp
      · intro x hx
        rcases List.mem_append.mp hx with hx | hx
        · exact List.mem_cons_of_mem node
            (hmem x (show x ∈ q ++ _ from List.mem_append.mpr (Or.inl hx)))
        · rcases List.mem_singleton.mp hx with rfl
          exact List.mem_cons_self x tl

/-! ## The node universe and the adjacency lookup -/

lemma mem_nodeUniverse {g : Graph} {x : String} :
    x ∈ nodeUniverse g ↔ x ∈ g.map Prod.fst ∨ x ∈ (g.map Prod.snd).flatten := by
  rw [nodeUniverse, List.mem_toFinset, get_all_nodes, mem_sortAsc, List.mem_dedup,
    List.mem_append]

lemma neighbors_of_not_key {g : Graph} {node : String}
    (h : node ∉ g.map Prod.fst) : neighbors g node = [] := by
  rw [neighbors]
  have : g.lookup node = none := by
    induction g with
    | nil => rfl
    | cons p gs ih =>
      obtain ⟨k, vs⟩ := p
      rw [List.lookup_cons]
      have hk : node ≠ k := by
        intro e
        exact h (by simp [e])
      have hbeq : (node == k) = false := by
        simp [hk]
      rw [hbeq]
      exact ih (fun hm => h (List.mem_cons_of_mem _ hm))
  rw [this]
  rfl

lemma neighbors_mem_values {g : Graph} {node c : String}
    (hc : c ∈ neighbors g node) : c ∈ (g.map Prod.snd).flatten := by
  rw [neighbors] at hc
  rcases hlk : g.lookup node with _ | l
  · rw [hlk] at hc
    simp at hc
  · rw [hlk] at hc
    simp only [Option.getD_some] at hc
    have hl : l ∈ g.map Prod.snd := by
      clear hc
      induction g with
      | nil => simp [List.lookup_nil] at hlk
      | cons p gs ih =>
        obtain ⟨k, vs⟩ := p
        rw [List.lookup_cons] at hlk
        by_cases hk : (node == k) = true
        · rw [hk] at hlk
          simp only [Option.some.injEq] at hlk
          subst hlk
          simp
        · rw [Bool.not_eq_true] at hk
          rw [hk] at hlk
          exact List.mem_cons_of_mem _ (ih hlk)
    exact List.mem_flatten.mpr ⟨l, hl, hc⟩

lemma neighbors_subset_universe {g : Graph} {node c : String}
    (hc : c ∈ neighbors g node) : c ∈ nodeUniverse g :=
  mem_nodeUniverse.mpr (Or.inr (neighbors_mem_values hc))

lemma not_key_of_not_mem_universe {g : Graph} {node : String}
    (h : node ∉ nodeUniverse g) : node ∉ g.map Prod.fst :=
  fun hm => h (mem_nodeUniverse.mpr (Or.inl hm))

/-! ## Termination of the loops -/

/-- The termination measure of a loop state: the number of nodes still in
the frontier plus the number of nodes that can still be enqueued. Every
executed iteration decreases it by exactly one. -/
def needed (g : Graph) (start : String) (s : SearchState) : Nat :=
  s.frontier.length + ((insert start (nodeUniverse g)) \ s.visited).card

lemma needed_step (g : Graph) (start node : String) (rest : List String)
    (v : Finset String) (ns : List String)
    (hns : ∀ x, x ∈ ns → x ∈ neighbors g node) :
    (rest ++ pushed ns v).length +
        ((insert start (nodeUniverse g)) \ visitedAfter ns v).card + 1 =
      (node :: rest).length + ((insert start (nodeUniverse g)) \ v).card := by
  set U := insert start (nodeUniverse g) with hU
  have hsub : (pushed ns v).toFinset ⊆ U \ v := by
    intro x hx
    rw [List.mem_toFinset, mem_pushed] at hx
    rw [Finset.mem_sdiff]
    exact ⟨Finset.mem_insert_of_mem (neighbors_subset_universe (hns x hx.1)), hx.2⟩
  have hset : U \ visitedAfter ns v = (U \ v) \ (pushed ns v).toFinset := by
    ext x
    simp only [Finset.mem_sdiff, mem_visitedAfter, List.mem_toFinset]
    tauto
  have hcard : (U \ visitedAfter ns v).card = (U \ v).card - (pushed ns v).length := by
    rw [hset, Finset.card_sdiff hsub, List.toFinset_card_of_nodup (pushed_nodup ns v)]
  have hle : (pushed ns v).length ≤ (U \ v).card := by
    calc (pushed ns v).length = (pushed ns v).toFinset.card :=
          (List.toFinset_card_of_nodup (pushed_nodup ns v)).symm
      _ ≤ (U \ v).card := Finset.card_le_card hsub
  rw [hcard]
  simp only [List.length_append, List.length_cons]
  omega

lemma needed_bfsStep (g : Graph) (start node : String) (rest : List String)
    (v : Finset String) (e : List String) (t : List TraceStep) :
    needed g start (bfsStep g node rest v e t) + 1 =
      needed g start ⟨node :: rest, v, e, t⟩ := by
  rw [bfsStep_eq]
  exact needed_step g start node rest v _ (fun x hx => mem_sortAsc.mp hx)

lemma needed_dfsStep (g : Graph) (start node : String) (rest : List String)
    (v : Finset String) (e : List String) (t : List TraceStep) :
    needed g start (dfsStep g node rest v e t) + 1 =
      needed g start ⟨rest ++ [node], v, e, t⟩ := by
  rw [dfsStep_eq]
  have h := needed_step g start node rest v (sortDesc (neighbors g node))
    (fun x hx => mem_sortDesc.mp hx)
  simp only [needed, List.length_cons, List.length_append, List.length_singleton,
    List.length_nil] at h ⊢
  omega

lemma bfsAux_term (g : Graph) (start : String) : ∀ (n : Nat) (s : SearchState),
    needed g start s ≤ n → (bfsAux g n s).frontier = [] := by
  intro n
  induction n with
  | zero =>
    intro s h
    rw [bfsAux_zero]
    have : s.frontier.length = 0 := by
      have := Nat.le_zero.mp h
      rw [needed] at this
      omega
    exact List.length_eq_zero.mp this
  | succ n ih =>
    intro s h
    obtain ⟨fr, v, e, t⟩ := s
    cases fr with
    | nil => rw [bfsAux_succ_nil]
    | cons node rest =>
      rw [bfsAux_succ_cons]
      apply ih
      have := needed_bfsStep g start node rest v e t
      omega

lemma dfsAux_term (g : Graph) (start : String) : ∀ (n : Nat) (s : SearchState),
    needed g start s ≤ n → (dfsAux g n s).frontier = [] := by
  intro n
  induction n with
  | zero =>
    intro s h
    rw [dfsAux_zero]
    have : s.frontier.length = 0 := by
      have := Nat.le_zero.mp h
      rw [needed] at this
      omega
    exact List.length_eq_zero.mp this
  | succ n ih =>
    intro s h
    obtain ⟨fr, v, e, t⟩ := s
    rcases List.eq_nil_or_concat fr with rfl | ⟨q, node, rfl⟩
    · rw [dfsAux_succ_nil]
    · rw [List.concat_eq_append] at *
      rw [dfsAux_succ_concat]
      apply ih
      have := needed_dfsStep g start node q v e t
      omega

lemma dfsAux_needed_le (g : Graph) (start : String) : ∀ (n : Nat) (s : SearchState),
    (dfsAux g n s).frontier ≠ [] →
      needed g start (dfsAux g n s) + n ≤ needed g start s := by
  intro n
  induction n with
  | zero => intro s _; rw [dfsAux_zero]; omega
  | succ n ih =>
    intro s h
    obtain ⟨fr, v, e, t⟩ := s
    rcases List.eq_nil_or_concat fr with rfl | ⟨q, node, rfl⟩
    · rw [dfsAux_succ_nil] at h
      exact absurd rfl h
    · rw [List.concat_eq_append] at *
      rw [dfsAux_succ_concat] at h ⊢
      have h1 := ih (dfsStep g node q v e t) h
      have h2 := needed_dfsStep g start node q v e t
      omega

lemma needed_init (g : Graph) (start : String) :
    needed g start (initState start) = totalFuel g start := by
  rw [needed, initState, totalFuel]
  have hmem : start ∈ insert start (nodeUniverse g) := Finset.mem_insert_self _ _
  have hsub : ({start} : Finset String) ⊆ insert start (nodeUniverse g) := by
    intro x hx
    rw [Finset.mem_singleton] at hx
    subst hx
    exact hmem
  have hpos : 0 < (insert start (nodeUniverse g)).card :=
    Finset.card_pos.mpr ⟨start, hmem⟩
  have : ((insert start (nodeUniverse g)) \ {start}).card =
      (insert start (nodeUniverse g)).card - 1 := by
    rw [Finset.card_sdiff hsub, Finset.card_singleton]
  simp only [List.length_singleton, this]
  omega

lemma bfsFinal_frontier (g : Graph) (start : String) :
    (bfsFinal g start).frontier = [] := by
  rw [bfsFinal, bfsStateAfter]
  exact bfsAux_term g start _ _ (by rw [needed_init])

lemma dfsFinal_frontier (g : Graph) (start : String) :
    (dfsFinal g start).frontier = [] := by
  rw [dfsFinal, dfsStateAfter]
  exact dfsAux_term g start _ _ (by rw [needed_init])

/-! ## The loop invariant -/

/-- The invariant maintained by both traversal loops: the frontier and the
expansion order have no duplicates and do not overlap, everything in them
is visited, everything visited is in one of them and is reachable from the
start node, every expanded node has all its neighbors visited, and the
recorded trace snapshots are faithful (one per expansion, in order, with
the arrow-joined path, the popped node absent from the recorded frontier,
recorded frontiers inside recorded visited sets, and monotone visited
sets bounded by the current one). -/
structure SearchInv (g : Graph) (start : String) (s : SearchState) : Prop where
  nodup_f : s.frontier.Nodup
  nodup_e : s.expanded.Nodup
  disj : ∀ x ∈ s.frontier, x ∉ s.expanded
  fr_vis : ∀ x ∈ s.frontier, x ∈ s.visited
  ex_vis : ∀ x ∈ s.expanded, x ∈ s.visited
  vis_sub : ∀ x ∈ s.visited, x ∈ s.frontier ∨ x ∈ s.expanded
  closed : ∀ x ∈ s.expanded, ∀ c ∈ neighbors g x, c ∈ s.visited
  reach : ∀ x ∈ s.visited, Reachable g start x
  len_eq : s.trace.length = s.expanded.length
  snap_exp : ∀ (i : Nat) (h1 : i < s.trace.length) (h2 : i < s.expanded.length),
    (s.trace.get ⟨i, h1⟩).expanded = s.expanded.get ⟨i, h2⟩
  snap_path : ∀ (i : Nat) (h1 : i < s.trace.length),
    (s.trace.get ⟨i, h1⟩).process_path = joinArrow (s.expanded.take (i + 1))
  snap_nomem : ∀ st ∈ s.trace, st.expanded ∉ st.frontier
  snap_frvis : ∀ st ∈ s.trace, ∀ x ∈ st.frontier, x ∈ st.visited
  snap_mono : s.trace.Pairwise (fun a b => a.visited ⊆ b.visited)
  snap_cur : ∀ st ∈ s.trace, st.visited ⊆ s.visited

lemma step_inv_core (g : Graph) (start node : String) (rest : List String)
    (v : Finset String) (e : List String) (t : List TraceStep)
    (ns sf : List String)
    (hns : ∀ x, x ∈ ns ↔ x ∈ neighbors g node)
    (hsf : ∀ x, x ∈ sf ↔ x ∈ rest)
    (hrnd : rest.Nodup) (hnr : node ∉ rest)
    (hend : e.Nodup) (hne : node ∉ e)
    (hdisj : ∀ x ∈ rest, x ∉ e)
    (hrv : ∀ x ∈ rest, x ∈ v) (hnv : node ∈ v) (hev : ∀ x ∈ e, x ∈ v)
    (hvsub : ∀ x ∈ v, x = node ∨ x ∈ rest ∨ x ∈ e)
    (hcl : ∀ x ∈ e, ∀ c ∈ neighbors g x, c ∈ v)
    (hre : ∀ x ∈ v, Reachable g start x)
    (hlen : t.length = e.length)
    (hsexp : ∀ (i : Nat) (h1 : i < t.length) (h2 : i < e.length),
      (t.get ⟨i, h1⟩).expanded = e.get ⟨i, h2⟩)
    (hspath : ∀ (i : Nat) (h1 : i < t.length),
      (t.get ⟨i, h1⟩).process_path = joinArrow (e.take (i + 1)))
    (hsnomem : ∀ st ∈ t, st.expanded ∉ st.frontier)
    (hsfrvis : ∀ st ∈ t, ∀ x ∈ st.frontier, x ∈ st.visited)
    (hsmono : t.Pairwise (fun a b => a.visited ⊆ b.visited))
    (hscur : ∀ st ∈ t, st.visited ⊆ v) :
    SearchInv g start
      ⟨rest ++ pushed ns v, visitedAfter ns v, e ++ [node],
        t ++ [⟨node, sf, v, joinArrow (e ++ [node])⟩]⟩ := by
  refine ⟨?_, ?_, ?_, ?_, ?_, ?_, ?_, ?_, ?_, ?_, ?_, ?_, ?_, ?_, ?_⟩
  · -- nodup_f
    refine List.nodup_append.mpr ⟨hrnd, pushed_nodup ns v, ?_⟩
    intro x hx hxp
    exact ((mem_pushed ns v x).mp hxp).2 (hrv x hx)
  · -- nodup_e
    refine List.nodup_append.mpr ⟨hend, List.nodup_singleton node, ?_⟩
    intro x hx hxs
    rcases List.mem_singleton.mp hxs
    exact hne hx
  · -- disj
    intro x hx hxe
    rcases List.mem_append.mp hx with hx | hx
    · rcases List.mem_append.mp hxe with hxe | hxe
      · exact hdisj x hx hxe
      · rcases List.mem_singleton.mp hxe
        exact hnr hx
    · have hxnv := ((mem_pushed ns v x).mp hx).2
      rcases List.mem_append.mp hxe with hxe | hxe
      · exact hxnv (hev x hxe)
      · rcases List.mem_singleton.mp hxe
        exact hxnv hnv
  · -- fr_vis
    intro x hx
    rcases List.mem_append.mp hx with hx | hx
    · exact subset_visitedAfter ns v (hrv x hx)
    · exact (mem_visitedAfter ns v x).mpr (Or.inr hx)
  · -- ex_vis
    intro x hx
    rcases List.mem_append.mp hx with hx | hx
    · exact subset_visitedAfter ns v (hev x hx)
    · rcases List.mem_singleton.mp hx
      exact subset_visitedAfter ns v hnv
  · -- vis_sub
    intro x hx
    rcases (mem_visitedAfter ns v x).mp hx with hx | hx
    · rcases hvsub x hx with rfl | hx | hx
      · exact Or.inr (List.mem_append.mpr (Or.inr (List.mem_singleton.mpr rfl)))
      · exact Or.inl (List.mem_append.mpr (Or.inl hx))
      · exact Or.inr (List.mem_append.mpr (Or.inl hx))
    · exact Or.inl (List.mem_append.mpr (Or.inr hx))
  · -- closed
    intro x hx c hc
    rcases List.mem_append.mp hx with hx | hx
    · exact subset_visitedAfter ns v (hcl x hx c hc)
    · rcases List.mem_singleton.mp hx
      by_cases hcv : c ∈ v
      · exact subset_visitedAfter ns v hcv
      · exact (mem_visitedAfter ns v c).mpr
          (Or.inr ((mem_pushed ns v c).mpr ⟨(hns c).mpr hc, hcv⟩))
  · -- reach
    intro x hx
    rcases (mem_visitedAfter ns v x).mp hx with hx | hx
    · exact hre x hx
    · have hxn := (hns x).mp ((mem_pushed ns v x).mp hx).1
      exact Relation.ReflTransGen.tail (hre node hnv) hxn
  · -- len_eq
    simp [hlen]
  · -- snap_exp
    intro i h1 h2
    have hl1 : i < t.length + 1 := by simpa using h1
    by_cases hi : i < t.length
    · have hie : i < e.length := by omega
      have := hsexp i hi hie
      rw [List.get_eq_getElem, List.get_eq_getElem] at this ⊢
      rw [List.getElem_append_left hi, List.getElem_append_left hie]
      exact this
    · have hit : i = t.length := by omega
      subst hit
      rw [List.get_eq_getElem, List.get_eq_getElem,
        List.getElem_append_right (le_refl t.length),
        List.getElem_append_right (show e.length ≤ t.length by omega)]
      simp [hlen]
  · -- snap_path
    intro i h1
    have hl1 : i < t.length + 1 := by simpa using h1
    by_cases hi : i < t.length
    · have := hspath i hi
      rw [List.get_eq_getElem] at this ⊢
      rw [List.getElem_append_left hi]
      rw [this]
      have h3 : (i + 1) - e.length = 0 := by omega
      rw [List.take_append_eq_append_take, h3]
      simp
    · have hit : i = t.length := by omega
      subst hit
      rw [List.get_eq_getElem,
        List.getElem_append_right (le_refl t.length)]
      have htake : (e ++ [node]).take (t.length + 1) = e ++ [node] := by
        have hlen2 : (e ++ [node]).length = t.length + 1 := by simp [hlen]
        rw [← hlen2, List.take_length]
      rw [htake]
      simp
  · -- snap_nomem
    intro st hst
    rcases List.mem_append.mp hst with hst | hst
    · exact hsnomem st hst
    · rcases List.mem_singleton.mp hst
      intro hmem
      exact hnr ((hsf node).mp hmem)
  · -- snap_frvis
    intro st hst x hx
    rcases List.mem_append.mp hst with hst | hst
    · exact hsfrvis st hst x hx
    · rcases List.mem_singleton.mp hst
      exact hrv x ((hsf x).mp hx)
  · -- snap_mono
    refine List.pairwise_append.mpr ⟨hsmono, by simp, ?_⟩
    intro a ha b hb
    rcases List.mem_singleton.mp hb
    exact hscur a ha
  · -- snap_cur
    intro st hst
    rcases List.mem_append.mp hst with hst | hst
    · exact subset_trans (hscur st hst) (subset_visitedAfter ns v)
    · rcases List.mem_singleton.mp hst
      exact subset_visitedAfter ns v

lemma bfsStep_inv (g : Graph) (start node : String) (rest : List String)
    (v : Finset String) (e : List String) (t : List TraceStep)
    (h : SearchInv g start ⟨node :: rest, v, e, t⟩) :
    SearchInv g start (bfsStep g node rest v e t) := by
  rw [bfsStep_eq]
  have hnf : (node :: rest).Nodup := h.nodup_f
  have hcons := List.nodup_cons.mp hnf
  refine step_inv_core g start node rest v e t _ rest
    (fun x => mem_sortAsc) (fun x => Iff.rfl)
    hcons.2 hcons.1 h.nodup_e
    (h.disj node (List.mem_cons_self node rest))
    (fun x hx => h.disj x (List.mem_cons_of_mem node hx))
    (fun x hx => h.fr_vis x (List.mem_cons_of_mem node hx))
    (h.fr_vis node (List.mem_cons_self node rest))
    h.ex_vis ?_ h.closed h.reach h.len_eq h.snap_exp h.snap_path
    h.snap_nomem h.snap_frvis h.snap_mono h.snap_cur
  intro x hx
  rcases h.vis_sub x hx with hf | he
  · rcases List.mem_cons.mp hf with rfl | hf
    · exact Or.inl rfl
    · exact Or.inr (Or.inl hf)
  · exact Or.inr (Or.inr he)

lemma dfsStep_inv (g : Graph) (start node : String) (rest : List String)
    (v : Finset String) (e : List String) (t : List TraceStep)
    (h : SearchInv g start ⟨rest ++ [node], v, e, t⟩) :
    SearchInv g start (dfsStep g node rest v e t) := by
  rw [dfsStep_eq]
  have hnf : (rest ++ [node]).Nodup := h.nodup_f
  have happ := List.nodup_append.mp hnf
  have hnode_mem : node ∈ rest ++ [node] :=
    List.mem_append.mpr (Or.inr (List.mem_singleton.mpr rfl))
  refine step_inv_core g start node rest v e t _ rest.reverse
    (fun x => mem_sortDesc) (fun x => List.mem_reverse)
    happ.1 (fun hm => happ.2.2 hm (List.mem_singleton.mpr rfl)) h.nodup_e
    (h.disj node hnode_mem)
    (fun x hx => h.disj x (List.mem_append.mpr (Or.inl hx)))
    (fun x hx => h.fr_vis x (List.mem_append.mpr (Or.inl hx)))
    (h.fr_vis node hnode_mem)
    h.ex_vis ?_ h.closed h.reach h.len_eq h.snap_exp h.snap_path
    h.snap_nomem h.snap_frvis h.snap_mono h.snap_cur
  intro x hx
  rcases h.vis_sub x hx with hf | he
  · rcases List.mem_append.mp hf with hf | hf
    · exact Or.inr (Or.inl hf)
    · exact Or.inl (List.mem_singleton.mp hf)
  · exact Or.inr (Or.inr he)

lemma bfsAux_inv (g : Graph) (start : String) : ∀ (n : Nat) (s : SearchState),
    SearchInv g start s → SearchInv g start (bfsAux g n s) := by
  intro n
  induction n with
  | zero => intro s h; rw [bfsAux_zero]; exact h
  | succ n ih =>
    intro s h
    obtain ⟨fr, v, e, t⟩ := s
    cases fr with
    | nil => rw [bfsAux_succ_nil]; exact h
    | cons node rest =>
      rw [bfsAux_succ_cons]
      exact ih _ (bfsStep_inv g start node rest v e t h)

lemma dfsAux_inv (g : Graph) (start : String) : ∀ (n : Nat) (s : SearchState),
    SearchInv g start s → SearchInv g start (dfsAux g n s) := by
  intro n
  induction n with
  | zero => intro s h; rw [dfsAux_zero]; exact h
  | succ n ih =>
    intro s h
    obtain ⟨fr, v, e, t⟩ := s
    rcases List.eq_nil_or_concat fr with rfl | ⟨q, node, rfl⟩
    · rw [dfsAux_succ_nil]; exact h
    · rw [List.concat_eq_append] at *
      rw [dfsAux_succ_concat]
      exact ih _ (dfsStep_inv g start node q v e t h)

lemma initState_inv (g : Graph) (start : String) :
    SearchInv g start (initState start) := by
  refine ⟨?_, ?_, ?_, ?_, ?_, ?_, ?_, ?_, ?_, ?_, ?_, ?_, ?_, ?_, ?_⟩
  · exact List.nodup_singleton start
  · exact List.nodup_nil
  · intro x _ hx
    simp [initState] at hx
  · intro x hx
    rcases List.mem_singleton.mp hx
    exact Finset.mem_singleton_self start
  · intro x hx
    simp [initState] at hx
  · intro x hx
    rcases Finset.mem_singleton.mp hx
    exact Or.inl (List.mem_singleton.mpr rfl)
  · intro x hx
    simp [initState] at hx
  · intro x hx
    rcases Finset.mem_singleton.mp hx
    exact Relation.ReflTransGen.refl
  · rfl
  · intro i h1 h2
    simp [initState] at h1
  · intro i h1
    simp [initState] at h1
  · intro st hst
    simp [initState] at hst
  · intro st hst
    simp [initState] at hst
  · exact List.Pairwise.nil
  · intro st hst
    simp [initState] at hst

lemma bfsFinal_inv (g : Graph) (start : String) :
    SearchInv g start (bfsFinal g start) :=
  bfsAux_inv g start _ _ (initState_inv g start)

lemma dfsFinal_inv (g : Graph) (start : String) :
    SearchInv g start (dfsFinal g start) :=
  dfsAux_inv g start _ _ (initState_inv g start)

/-! ## Helper lemmas for the claims -/

lemma joinArrow_single (a : String) : joinArrow [a] = a := rfl

lemma bfsFinal_start_vis (g : Graph) (start : String) :
    start ∈ (bfsFinal g start).visited :=
  bfsAux_visited_mono g (totalFuel g start) (initState start)
    (by simp [initState])

lemma dfsFinal_start_vis (g : Graph) (start : String) :
    start ∈ (dfsFinal g start).visited :=
  dfsAux_visited_mono g (totalFuel g start) (initState start)
    (by simp [initState])

lemma final_mem_iff_reachable {g : Graph} {start : String} {s : SearchState}
    (hInv : SearchInv g start s) (hfr : s.frontier = [])
    (hstart : start ∈ s.visited) (y : String) :
    y ∈ s.expanded ↔ Reachable g start y := by
  have hvis_exp : ∀ z, z ∈ s.visited ↔ z ∈ s.expanded := by
    intro z
    constructor
    · intro hz
      rcases hInv.vis_sub z hz with hf | he
      · rw [hfr] at hf
        simp at hf
      · exact he
    · exact hInv.ex_vis z
  constructor
  · intro hy
    exact hInv.reach y (hInv.ex_vis y hy)
  · intro hy
    rw [← hvis_exp]
    have hy' : Relation.ReflTransGen (fun u w => w ∈ neighbors g u) start y := hy
    clear hy
    induction hy' with
    | refl => exact hstart
    | tail hab hbc ih => exact hInv.closed _ ((hvis_exp _).mp ih) _ hbc

lemma pairwise_visited_getD {t : List TraceStep}
    (hp : t.Pairwise (fun a b => a.visited ⊆ b.visited)) {i j : Nat}
    (hij : i ≤ j) (hj : j < t.length) :
    (t.getD i emptyStep).visited ⊆ (t.getD j emptyStep).visited := by
  have hi : i < t.length := lt_of_le_of_lt hij hj
  rw [List.getD_eq_getElem t emptyStep hi, List.getD_eq_getElem t emptyStep hj]
  rcases Nat.lt_or_ge i j with hlt | hge
  · have := List.pairwise_iff_get.mp hp ⟨i, hi⟩ ⟨j, hj⟩ hlt
    rw [List.get_eq_getElem, List.get_eq_getElem] at this
    exact this
  · have heq : i = j := le_antisymm hij hge
    subst heq
    exact subset_rfl

lemma snap_claims {g : Graph} {start : String} {s : SearchState}
    (hInv : SearchInv g start s) (i : Nat)
    (h1 : i < s.trace.length) (h2 : i < s.expanded.length) :
    (s.trace.getD i emptyStep).expanded = s.expanded.getD i "" ∧
    (s.trace.getD i emptyStep).process_path = joinArrow (s.expanded.take (i + 1)) ∧
    (s.trace.getD i emptyStep).expanded ∉ (s.trace.getD i emptyStep).frontier ∧
    ∀ c, c ∈ neighbors g ((s.trace.getD i emptyStep).expanded) →
      c ∉ (s.trace.getD i emptyStep).visited →
        c ∉ (s.trace.getD i emptyStep).frontier := by
  have hget : s.trace.getD i emptyStep = s.trace.get ⟨i, h1⟩ := by
    rw [List.getD_eq_getElem _ _ h1, List.get_eq_getElem]
  have hmem : s.trace.get ⟨i, h1⟩ ∈ s.trace := List.get_mem _ _ _
  refine ⟨?_, ?_, ?_, ?_⟩
  · rw [hget, hInv.snap_exp i h1 h2, List.getD_eq_getElem _ _ h2, List.get_eq_getElem]
  · rw [hget, hInv.snap_path i h1]
  · rw [hget]
    exact hInv.snap_nomem _ hmem
  · intro c _ hcv hcf
    rw [hget] at hcv hcf
    exact hcv (hInv.snap_frvis _ hmem c hcf)

/-- C7: for every finite directed graph and every start node, both
`breadth_first_search` and `depth_first_search` terminate (the frontier of
the final loop state is empty, and running the loop any longer does not
change the state), and every node id of the returned expansion order is a
member of the final visited set. -/
theorem c7_termination_and_visited (g : Graph) (start : String) :
    (bfsFinal g start).frontier = [] ∧
    (∀ k, bfsAux g k (bfsFinal g start) = bfsFinal g start) ∧
    (breadth_first_search g start).1.toFinset ⊆ (bfsFinal g start).visited ∧
    (dfsFinal g start).frontier = [] ∧
    (∀ k, dfsAux g k (dfsFinal g start) = dfsFinal g start) ∧
    (depth_first_search g start).1.toFinset ⊆ (dfsFinal g start).visited := by
  refine ⟨bfsFinal_frontier g start, ?_, ?_, dfsFinal_frontier g start, ?_, ?_⟩
  · intro k
    rcases hb : bfsFinal g start with ⟨fr, v, e, t⟩
    have hfr := bfsFinal_frontier g start
    rw [hb] at hfr
    dsimp only at hfr
    subst hfr
    exact bfsAux_nil_frontier g k v e t
  · intro z hz
    rw [List.mem_toFinset] at hz
    exact (bfsFinal_inv g start).ex_vis z hz
  · intro k
    rcases hb : dfsFinal g start with ⟨fr, v, e, t⟩
    have hfr := dfsFinal_frontier g start
    rw [hb] at hfr
    dsimp only at hfr
    subst hfr
    exact dfsAux_nil_frontier g k v e t
  · intro z hz
    rw [List.mem_toFinset] at hz
    exact (dfsFinal_inv g start).ex_vis z hz

/-- C9: for every graph and start node, including graphs with duplicate
adjacency entries and self-loops, no node id appears twice in the
expansion order of either algorithm. -/
theorem c9_expansion_order_nodup (g : Graph) (start : String) :
    (breadth_first_search g start).1.Nodup ∧
    (depth_first_search g start).1.Nodup :=
  ⟨(bfsFinal_inv g start).nodup_e, (dfsFinal_inv g start).nodup_e⟩

/-- C8: for every graph and start node, the visited set recorded in trace
snapshots grows monotonically: an earlier snapshot's visited set is a
subset of every later snapshot's visited set, for both algorithms. -/
theorem c8_visited_monotone (g : Graph) (start : String) (i j : Nat)
    (hij : i ≤ j)
    (hbj : j < (breadth_first_search g start).2.length)
    (hdj : j < (depth_first_search g start).2.length) :
    ((breadth_first_search g start).2.getD i emptyStep).visited ⊆
      ((breadth_first_search g start).2.getD j emptyStep).visited ∧
    ((depth_first_search g start).2.getD i emptyStep).visited ⊆
      ((depth_first_search g start).2.getD j emptyStep).visited :=
  ⟨pairwise_visited_getD (bfsFinal_inv g start).snap_mono hij hbj,
   pairwise_visited_getD (dfsFinal_inv g start).snap_mono hij hdj⟩

/-- C8 witness: the monotonicity theorem applied to the fixture run at
snapshot indices 0 and 1. -/
theorem c8_visited_monotone_witness :
    ((breadth_first_search LAB1_GRAPH "A").2.getD 0 emptyStep).visited ⊆
      ((breadth_first_search LAB1_GRAPH "A").2.getD 1 emptyStep).visited ∧
    ((depth_first_search LAB1_GRAPH "A").2.getD 0 emptyStep).visited ⊆
      ((depth_first_search LAB1_GRAPH "A").2.getD 1 emptyStep).visited :=
  c8_visited_monotone LAB1_GRAPH "A" 0 1 (by decide) (by decide) (by decide)

/-- C10: for every graph and start node, a node is in the BFS expansion
order exactly when it is reachable from the start node along directed
edges, and the DFS expansion order contains exactly the same nodes as the
BFS one. -/
theorem c10_reachable_set (g : Graph) (start x : String) :
    (x ∈ (breadth_first_search g start).1 ↔ Reachable g start x) ∧
    (x ∈ (depth_first_search g start).1 ↔ x ∈ (breadth_first_search g start).1) := by
  have hb := final_mem_iff_reachable (bfsFinal_inv g start)
    (bfsFinal_frontier g start) (bfsFinal_start_vis g start)
  have hd := final_mem_iff_reachable (dfsFinal_inv g start)
    (dfsFinal_frontier g start) (dfsFinal_start_vis g start)
  exact ⟨hb x, (hd x).trans (hb x).symm⟩

/-! ## Which loop state each snapshot was taken from -/

lemma bfsAux_trace_prefix (g : Graph) : ∀ (n : Nat) (s : SearchState),
    ∃ tt, (bfsAux g n s).trace = s.trace ++ tt := by
  intro n
  induction n with
  | zero => intro s; exact ⟨[], by simp [bfsAux_zero]⟩
  | succ n ih =>
    intro s
    obtain ⟨fr, v, e, t⟩ := s
    cases fr with
    | nil => exact ⟨[], by simp [bfsAux_succ_nil]⟩
    | cons node rest =>
      rw [bfsAux_succ_cons, bfsStep_eq]
      obtain ⟨tt, htt⟩ := ih ⟨rest ++ pushed (sortAsc (neighbors g node)) v,
        visitedAfter (sortAsc (neighbors g node)) v, e ++ [node],
        t ++ [⟨node, rest, v, joinArrow (e ++ [node])⟩]⟩
      refine ⟨⟨node, rest, v, joinArrow (e ++ [node])⟩ :: tt, ?_⟩
      rw [htt]
      simp

lemma dfsAux_trace_prefix (g : Graph) : ∀ (n : Nat) (s : SearchState),
    ∃ tt, (dfsAux g n s).trace = s.trace ++ tt := by
  intro n
  induction n with
  | zero => intro s; exact ⟨[], by simp [dfsAux_zero]⟩
  | succ n ih =>
    intro s
    obtain ⟨fr, v, e, t⟩ := s
    rcases List.eq_nil_or_concat fr with rfl | ⟨q, node, rfl⟩
    · exact ⟨[], by simp [dfsAux_succ_nil]⟩
    · rw [List.concat_eq_append] at *
      rw [dfsAux_succ_concat, dfsStep_eq]
      obtain ⟨tt, htt⟩ := ih ⟨q ++ pushed (sortDesc (neighbors g node)) v,
        visitedAfter (sortDesc (neighbors g node)) v, e ++ [node],
        t ++ [⟨node, q.reverse, v, joinArrow (e ++ [node])⟩]⟩
      refine ⟨⟨node, q.reverse, v, joinArrow (e ++ [node])⟩ :: tt, ?_⟩
      rw [htt]
      simp

lemma bfsStateAfter_stable (g : Graph) (start : String) (k m : Nat) (hkm : k ≤ m)
    (hfr : (bfsStateAfter g start k).frontier = []) :
    bfsStateAfter g start m = bfsStateAfter g start k := by
  have hm : m = k + (m - k) := by omega
  rw [hm, bfsStateAfter, bfsAux_add g k (m - k), ← bfsStateAfter]
  rcases hk : bfsStateAfter g start k with ⟨fr, v, e, t⟩
  rw [hk] at hfr
  dsimp only at hfr
  subst hfr
  exact bfsAux_nil_frontier g (m - k) v e t

lemma dfsStateAfter_stable (g : Graph) (start : String) (k m : Nat) (hkm : k ≤ m)
    (hfr : (dfsStateAfter g start k).frontier = []) :
    dfsStateAfter g start m = dfsStateAfter g start k := by
  have hm : m = k + (m - k) := by omega
  rw [hm, dfsStateAfter, dfsAux_add g k (m - k), ← dfsStateAfter]
  rcases hk : dfsStateAfter g start k with ⟨fr, v, e, t⟩
  rw [hk] at hfr
  dsimp only at hfr
  subst hfr
  exact dfsAux_nil_frontier g (m - k) v e t

lemma bfs_exec (g : Graph) (start : String) : ∀ i, i < (bfsFinal g start).trace.length →
    (bfsStateAfter g start i).trace.length = i ∧ (bfsStateAfter g start i).frontier ≠ [] := by
  intro i
  induction i with
  | zero =>
    intro _
    refine ⟨rfl, ?_⟩
    simp [bfsStateAfter, bfsAux_zero, initState]
  | succ i ih =>
    intro h
    have hi : i < (bfsFinal g start).trace.length := by omega
    obtain ⟨hlen, hfr⟩ := ih hi
    rcases hs : bfsStateAfter g start i with ⟨fr, v, e, t⟩
    rw [hs] at hlen hfr
    dsimp only at hlen hfr
    cases fr with
    | nil => exact absurd rfl hfr
    | cons node rest =>
      have hstep : bfsStateAfter g start (i + 1) = bfsStep g node rest v e t := by
        rw [bfsStateAfter, bfsAux_add g i 1, ← bfsStateAfter, hs, bfsAux_succ_cons,
          bfsAux_zero]
      have hlen1 : (bfsStateAfter g start (i + 1)).trace.length = i + 1 := by
        rw [hstep, bfsStep_eq]
        simp [hlen]
      refine ⟨hlen1, ?_⟩
      intro hempty
      have htr : (bfsFinal g start).trace = (bfsStateAfter g start (i + 1)).trace := by
        by_cases hile : i + 1 ≤ totalFuel g start
        · rw [bfsFinal, bfsStateAfter_stable g start (i + 1) (totalFuel g start) hile hempty]
        · have hlef : totalFuel g start ≤ i + 1 := by omega
          have hstab := bfsStateAfter_stable g start (totalFuel g start) (i + 1) hlef
            (bfsFinal_frontier g start)
          rw [bfsFinal, hstab]
      rw [htr, hlen1] at h
      omega

lemma dfs_exec (g : Graph) (start : String) : ∀ i, i < (dfsFinal g start).trace.length →
    (dfsStateAfter g start i).trace.length = i ∧ (dfsStateAfter g start i).frontier ≠ [] := by
  intro i
  induction i with
  | zero =>
    intro _
    refine ⟨rfl, ?_⟩
    simp [dfsStateAfter, dfsAux_zero, initState]
  | succ i ih =>
    intro h
    have hi : i < (dfsFinal g start).trace.length := by omega
    obtain ⟨hlen, hfr⟩ := ih hi
    rcases hs : dfsStateAfter g start i with ⟨fr, v, e, t⟩
    rw [hs] at hlen hfr
    dsimp only at hlen hfr
    rcases List.eq_nil_or_concat fr with rfl | ⟨q, node, rfl⟩
    · exact absurd rfl hfr
    · rw [List.concat_eq_append] at *
      have hstep : dfsStateAfter g start (i + 1) = dfsStep g node q v e t := by
        rw [dfsStateAfter, dfsAux_add g i 1, ← dfsStateAfter, hs, dfsAux_succ_concat,
          dfsAux_zero]
      have hlen1 : (dfsStateAfter g start (i + 1)).trace.length = i + 1 := by
        rw [hstep, dfsStep_eq]
        simp [hlen]
      refine ⟨hlen1, ?_⟩
      intro hempty
      have htr : (dfsFinal g start).trace = (dfsStateAfter g start (i + 1)).trace := by
        by_cases hile : i + 1 ≤ totalFuel g start
        · rw [dfsFinal, dfsStateAfter_stable g start (i + 1) (totalFuel g start) hile hempty]
        · have hlef : totalFuel g start ≤ i + 1 := by omega
          have hstab := dfsStateAfter_stable g start (totalFuel g start) (i + 1) hlef
            (dfsFinal_frontier g start)
          rw [dfsFinal, hstab]
      rw [htr, hlen1] at h
      omega

lemma bfs_snapshot_spec (g : Graph) (start : String) (i : Nat)
    (h : i < (bfsFinal g start).trace.length) :
    ∃ node rest,
      (bfsStateAfter g start i).frontier = node :: rest ∧
      (bfsFinal g start).trace.getD i emptyStep =
        ⟨node, rest, (bfsStateAfter g start i).visited,
          joinArrow ((bfsStateAfter g start i).expanded ++ [node])⟩ := by
  obtain ⟨hlen, hfr⟩ := bfs_exec g start i h
  rcases hs : bfsStateAfter g start i with ⟨fr, v, e, t⟩
  rw [hs] at hlen hfr
  dsimp only at hlen hfr
  cases fr with
  | nil => exact absurd rfl hfr
  | cons node rest =>
    refine ⟨node, rest, rfl, ?_⟩
    have hstep : bfsStateAfter g start (i + 1) = bfsStep g node rest v e t := by
      rw [bfsStateAfter, bfsAux_add g i 1, ← bfsStateAfter, hs, bfsAux_succ_cons,
        bfsAux_zero]
    have hile : i + 1 ≤ totalFuel g start := by
      by_contra hc
      have hlef : totalFuel g start ≤ i := by omega
      have hstab := bfsStateAfter_stable g start (totalFuel g start) i hlef
        (bfsFinal_frontier g start)
      have hfe : (bfsStateAfter g start i).frontier = [] := by
        rw [hstab]
        exact bfsFinal_frontier g start
      rw [hs] at hfe
      dsimp only at hfe
      simp at hfe
    have hdecomp : bfsFinal g start =
        bfsAux g (totalFuel g start - (i + 1)) (bfsStateAfter g start (i + 1)) := by
      rw [bfsFinal, bfsStateAfter, bfsStateAfter]
      conv_rhs => rw [← bfsAux_add]
      rw [show (i + 1) + (totalFuel g start - (i + 1)) = totalFuel g start from by omega]
    obtain ⟨tt, htt⟩ := bfsAux_trace_prefix g (totalFuel g start - (i + 1))
      (bfsStateAfter g start (i + 1))
    have htr : (bfsFinal g start).trace =
        t ++ ([⟨node, rest, v, joinArrow (e ++ [node])⟩] ++ tt) := by
      rw [hdecomp, htt, hstep, bfsStep_eq]
      simp
    rw [htr, List.getD_append_right t _ emptyStep i (by omega),
      show i - t.length = 0 from by omega]
    rfl

lemma dfs_snapshot_spec (g : Graph) (start : String) (i : Nat)
    (h : i < (dfsFinal g start).trace.length) :
    ∃ node rest,
      (dfsStateAfter g start i).frontier = rest ++ [node] ∧
      (dfsFinal g start).trace.getD i emptyStep =
        ⟨node, rest.reverse, (dfsStateAfter g start i).visited,
          joinArrow ((dfsStateAfter g start i).expanded ++ [node])⟩ := by
  obtain ⟨hlen, hfr⟩ := dfs_exec g start i h
  rcases hs : dfsStateAfter g start i with ⟨fr, v, e, t⟩
  rw [hs] at hlen hfr
  dsimp only at hlen hfr
  rcases List.eq_nil_or_concat fr with rfl | ⟨q, node, rfl⟩
  · exact absurd rfl hfr
  · rw [List.concat_eq_append] at *
    refine ⟨node, q, rfl, ?_⟩
    have hstep : dfsStateAfter g start (i + 1) = dfsStep g node q v e t := by
      rw [dfsStateAfter, dfsAux_add g i 1, ← dfsStateAfter, hs, dfsAux_succ_concat,
        dfsAux_zero]
    have hile : i + 1 ≤ totalFuel g start := by
      by_contra hc
      have hlef : totalFuel g start ≤ i := by omega
      have hstab := dfsStateAfter_stable g start (totalFuel g start) i hlef
        (dfsFinal_frontier g start)
      have hfe : (dfsStateAfter g start i).frontier = [] := by
        rw [hstab]
        exact dfsFinal_frontier g start
      rw [hs] at hfe
      dsimp only at hfe
      simp at hfe
    have hdecomp : dfsFinal g start =
        dfsAux g (totalFuel g start - (i + 1)) (dfsStateAfter g start (i + 1)) := by
      rw [dfsFinal, dfsStateAfter, dfsStateAfter]
      conv_rhs => rw [← dfsAux_add]
      rw [show (i + 1) + (totalFuel g start - (i + 1)) = totalFuel g start from by omega]
    obtain ⟨tt, htt⟩ := dfsAux_trace_prefix g (totalFuel g start - (i + 1))
      (dfsStateAfter g start (i + 1))
    have htr : (dfsFinal g start).trace =
        t ++ ([⟨node, q.reverse, v, joinArrow (e ++ [node])⟩] ++ tt) := by
      rw [hdecomp, htt, hstep, dfsStep_eq]
      simp
    rw [htr, List.getD_append_right t _ emptyStep i (by omega),
      show i - t.length = 0 from by omega]
    rfl


/-- C4: for every graph and start node, each trace snapshot of either
algorithm captures the state after removing the expanded node from the
frontier but before processing its neighbors: the loop state's frontier at
that step is exactly the expanded node on top of (for DFS: below, in
storage order) the recorded frontier, the recorded visited set equals the
loop state's visited set before that step's children are discovered (so it
excludes every child discovered at that step), the snapshot's expanded
node is the corresponding entry of the expansion order, its process path
is the arrow-joined concatenation of the expansion order up to and
including it, the recorded frontier does not contain the expanded node,
and a neighbor not yet in the recorded visited set is not in the recorded
frontier either. -/
theorem c4_snapshot_contract (g : Graph) (start : String) (i : Nat)
    (hb1 : i < (breadth_first_search g start).2.length)
    (hb2 : i < (breadth_first_search g start).1.length)
    (hd1 : i < (depth_first_search g start).2.length)
    (hd2 : i < (depth_first_search g start).1.length) :
    (((breadth_first_search g start).2.getD i emptyStep).expanded =
        (breadth_first_search g start).1.getD i "" ∧
      ((breadth_first_search g start).2.getD i emptyStep).process_path =
        joinArrow ((breadth_first_search g start).1.take (i + 1)) ∧
      (bfsStateAfter g start i).frontier =
        ((breadth_first_search g start).2.getD i emptyStep).expanded ::
          ((breadth_first_search g start).2.getD i emptyStep).frontier ∧
      ((breadth_first_search g start).2.getD i emptyStep).visited =
        (bfsStateAfter g start i).visited ∧
      ((breadth_first_search g start).2.getD i emptyStep).expanded ∉
        ((breadth_first_search g start).2.getD i emptyStep).frontier ∧
      ∀ c, c ∈ neighbors g (((breadth_first_search g start).2.getD i emptyStep).expanded) →
        c ∉ ((breadth_first_search g start).2.getD i emptyStep).visited →
          c ∉ ((breadth_first_search g start).2.getD i emptyStep).frontier) ∧
    (((depth_first_search g start).2.getD i emptyStep).expanded =
        (depth_first_search g start).1.getD i "" ∧
      ((depth_first_search g start).2.getD i emptyStep).process_path =
        joinArrow ((depth_first_search g start).1.take (i + 1)) ∧
      (dfsStateAfter g start i).frontier =
        ((depth_first_search g start).2.getD i emptyStep).frontier.reverse ++
          [((depth_first_search g start).2.getD i emptyStep).expanded] ∧
      ((depth_first_search g start).2.getD i emptyStep).visited =
        (dfsStateAfter g start i).visited ∧
      ((depth_first_search g start).2.getD i emptyStep).expanded ∉
        ((depth_first_search g start).2.getD i emptyStep).frontier ∧
      ∀ c, c ∈ neighbors g (((depth_first_search g start).2.getD i emptyStep).expanded) →
        c ∉ ((depth_first_search g start).2.getD i emptyStep).visited →
          c ∉ ((depth_first_search g start).2.getD i emptyStep).frontier) := by
  obtain ⟨hbA, hbB, hbC, hbD⟩ := snap_claims (bfsFinal_inv g start) i hb1 hb2
  obtain ⟨nb, rb, hbf, hbs⟩ := bfs_snapshot_spec g start i hb1
  obtain ⟨hdA, hdB, hdC, hdD⟩ := snap_claims (dfsFinal_inv g start) i hd1 hd2
  obtain ⟨nd, rd, hdf, hds⟩ := dfs_snapshot_spec g start i hd1
  refine ⟨⟨hbA, hbB, ?_, ?_, hbC, hbD⟩, hdA, hdB, ?_, ?_, hdC, hdD⟩
  · show (bfsStateAfter g start i).frontier =
      ((bfsFinal g start).trace.getD i emptyStep).expanded ::
        ((bfsFinal g start).trace.getD i emptyStep).frontier
    rw [hbs]
    exact hbf
  · show ((bfsFinal g start).trace.getD i emptyStep).visited =
      (bfsStateAfter g start i).visited
    rw [hbs]
  · show (dfsStateAfter g start i).frontier =
      ((dfsFinal g start).trace.getD i emptyStep).frontier.reverse ++
        [((dfsFinal g start).trace.getD i emptyStep).expanded]
    rw [hds]
    dsimp only
    rw [List.reverse_reverse]
    exact hdf
  · show ((dfsFinal g start).trace.getD i emptyStep).visited =
      (dfsStateAfter g start i).visited
    rw [hds]

/-- C4 witness: the snapshot contract applied to the fixture run at
snapshot index 0, with the discovered-child clause instantiated at the
child `B` of the expanded node `A`. -/
theorem c4_snapshot_contract_witness :
    ((breadth_first_search LAB1_GRAPH "A").2.getD 0 emptyStep).expanded =
        (breadth_first_search LAB1_GRAPH "A").1.getD 0 "" ∧
    ((breadth_first_search LAB1_GRAPH "A").2.getD 0 emptyStep).process_path =
        joinArrow ((breadth_first_search LAB1_GRAPH "A").1.take 1) ∧
    (bfsStateAfter LAB1_GRAPH "A" 0).frontier =
        ((breadth_first_search LAB1_GRAPH "A").2.getD 0 emptyStep).expanded ::
          ((breadth_first_search LAB1_GRAPH "A").2.getD 0 emptyStep).frontier ∧
    ((breadth_first_search LAB1_GRAPH "A").2.getD 0 emptyStep).visited =
        (bfsStateAfter LAB1_GRAPH "A" 0).visited ∧
    ((breadth_first_search LAB1_GRAPH "A").2.getD 0 emptyStep).expanded ∉
        ((breadth_first_search LAB1_GRAPH "A").2.getD 0 emptyStep).frontier ∧
    "B" ∉ ((breadth_first_search LAB1_GRAPH "A").2.getD 0 emptyStep).frontier ∧
    ((depth_first_search LAB1_GRAPH "A").2.getD 0 emptyStep).expanded =
        (depth_first_search LAB1_GRAPH "A").1.getD 0 "" ∧
    ((depth_first_search LAB1_GRAPH "A").2.getD 0 emptyStep).process_path =
        joinArrow ((depth_first_search LAB1_GRAPH "A").1.take 1) ∧
    (dfsStateAfter LAB1_GRAPH "A" 0).frontier =
        ((depth_first_search LAB1_GRAPH "A").2.getD 0 emptyStep).frontier.reverse ++
          [((depth_first_search LAB1_GRAPH "A").2.getD 0 emptyStep).expanded] ∧
    ((depth_first_search LAB1_GRAPH "A").2.getD 0 emptyStep).visited =
        (dfsStateAfter LAB1_GRAPH "A" 0).visited ∧
    ((depth_first_search LAB1_GRAPH "A").2.getD 0 emptyStep).expanded ∉
        ((depth_first_search LAB1_GRAPH "A").2.getD 0 emptyStep).frontier ∧
    "B" ∉ ((depth_first_search LAB1_GRAPH "A").2.getD 0 emptyStep).frontier := by
  have h := c4_snapshot_contract LAB1_GRAPH "A" 0
    (by decide) (by decide) (by decide) (by decide)
  exact ⟨h.1.1, h.1.2.1, h.1.2.2.1, h.1.2.2.2.1, h.1.2.2.2.2.1,
    h.1.2.2.2.2.2 "B" (by decide) (by decide),
    h.2.1, h.2.2.1, h.2.2.2.1, h.2.2.2.2.1, h.2.2.2.2.2.1,
    h.2.2.2.2.2.2 "B" (by decide) (by decide)⟩

/-- C6: for every graph and every start node that is neither a key nor a
neighbor value of the graph, both algorithms run (they are total
functions) and return the one-element expansion order `[start]` together
with a single trace snapshot whose frontier is empty, whose visited set is
`{start}` and whose process path is `start`. -/
theorem c6_unknown_start (g : Graph) (start : String)
    (h : start ∉ nodeUniverse g) :
    breadth_first_search g start = ([start], [⟨start, [], {start}, start⟩]) ∧
    depth_first_search g start = ([start], [⟨start, [], {start}, start⟩]) := by
  have hnb : neighbors g start = [] :=
    neighbors_of_not_key (not_key_of_not_mem_universe h)
  have hfuel : 0 < totalFuel g start :=
    Finset.card_pos.mpr ⟨start, Finset.mem_insert_self _ _⟩
  obtain ⟨m, hm⟩ : ∃ m, totalFuel g start = m + 1 :=
    ⟨totalFuel g start - 1, by omega⟩
  have hp : pushed (sortAsc (neighbors g start)) {start} = [] := by
    rw [hnb]
    rfl
  have hv : visitedAfter (sortAsc (neighbors g start)) {start} = {start} := by
    rw [hnb]
    rfl
  have hpd : pushed (sortDesc (neighbors g start)) {start} = [] := by
    rw [hnb]
    rfl
  have hvd : visitedAfter (sortDesc (neighbors g start)) {start} = {start} := by
    rw [hnb]
    rfl
  constructor
  · have hb : bfsFinal g start =
        ⟨[], {start}, [start], [⟨start, [], {start}, joinArrow [start]⟩]⟩ := by
      rw [bfsFinal, bfsStateAfter, hm, initState, bfsAux_succ_cons, bfsStep_eq,
        hp, hv]
      simp only [List.nil_append, List.append_nil]
      exact bfsAux_nil_frontier g m {start} [start] _
    rw [breadth_first_search, hb, joinArrow_single]
  · have hd : dfsFinal g start =
        ⟨[], {start}, [start], [⟨start, [], {start}, joinArrow [start]⟩]⟩ := by
      rw [dfsFinal, dfsStateAfter, hm, initState]
      rw [show ([start] : List String) = [] ++ [start] from rfl,
        dfsAux_succ_concat, dfsStep_eq, hpd, hvd]
      simp only [List.nil_append, List.append_nil, List.reverse_nil]
      exact dfsAux_nil_frontier g m {start} [start] _
    rw [depth_first_search, hd, joinArrow_single]

/-- C6 witness: the unknown-start theorem applied to the fixture graph and
the start node `Z`, which is neither a key nor a neighbor value of it. -/
theorem c6_unknown_start_witness :
    ("Z" : String) ∉ nodeUniverse LAB1_GRAPH ∧
    breadth_first_search LAB1_GRAPH "Z" = (["Z"], [⟨"Z", [], {"Z"}, "Z"⟩]) ∧
    depth_first_search LAB1_GRAPH "Z" = (["Z"], [⟨"Z", [], {"Z"}, "Z"⟩]) :=
  ⟨by decide, (c6_unknown_start LAB1_GRAPH "Z" (by decide)).1,
    (c6_unknown_start LAB1_GRAPH "Z" (by decide)).2⟩

/-! ## The tie-break law -/

lemma pushed_pair_asc (g : Graph) (node x y : String) (v : Finset String)
    (hxy : strLt x y = true)
    (hset : (unvisitedNeighbors g node v).toFinset = {x, y}) :
    pushed (sortAsc (neighbors g node)) v = [x, y] := by
  have hne : x ≠ y := strLt_ne hxy
  have hmem : ∀ c, c ∈ pushed (sortAsc (neighbors g node)) v ↔ c = x ∨ c = y := by
    intro c
    rw [mem_pushed]
    have h2 : c ∈ unvisitedNeighbors g node v ↔ c ∈ neighbors g node ∧ c ∉ v := by
      rw [unvisitedNeighbors, List.mem_filter, decide_eq_true_iff]
    constructor
    · rintro ⟨hc, hcv⟩
      have hin : c ∈ (unvisitedNeighbors g node v).toFinset := by
        rw [List.mem_toFinset, h2]
        exact ⟨mem_sortAsc.mp hc, hcv⟩
      rw [hset] at hin
      simpa using hin
    · intro hc
      have hin : c ∈ ({x, y} : Finset String) := by simpa using hc
      rw [← hset, List.mem_toFinset, h2] at hin
      exact ⟨mem_sortAsc.mpr hin.1, hin.2⟩
  rcases nodup_pair_eq (pushed_nodup _ _) hmem hne with heq | heq
  · exact heq
  · exfalso
    have hp : (pushed (sortAsc (neighbors g node)) v).Pairwise
        (fun a b => strLe a b = true) :=
      List.Pairwise.sublist (pushed_sublist _ _) (sortAsc_pairwise _)
    rw [heq] at hp
    have hyx : strLe y x = true :=
      (List.pairwise_cons.mp hp).1 x (List.mem_singleton.mpr rfl)
    rw [strLe_of_flip_false hxy] at hyx
    exact Bool.false_ne_true hyx

lemma pushed_pair_desc (g : Graph) (node x y : String) (v : Finset String)
    (hxy : strLt x y = true)
    (hset : (unvisitedNeighbors g node v).toFinset = {x, y}) :
    pushed (sortDesc (neighbors g node)) v = [y, x] := by
  have hne : x ≠ y := strLt_ne hxy
  have hmem : ∀ c, c ∈ pushed (sortDesc (neighbors g node)) v ↔ c = x ∨ c = y := by
    intro c
    rw [mem_pushed]
    have h2 : c ∈ unvisitedNeighbors g node v ↔ c ∈ neighbors g node ∧ c ∉ v := by
      rw [unvisitedNeighbors, List.mem_filter, decide_eq_true_iff]
    constructor
    · rintro ⟨hc, hcv⟩
      have hin : c ∈ (unvisitedNeighbors g node v).toFinset := by
        rw [List.mem_toFinset, h2]
        exact ⟨mem_sortDesc.mp hc, hcv⟩
      rw [hset] at hin
      simpa using hin
    · intro hc
      have hin : c ∈ ({x, y} : Finset String) := by simpa using hc
      rw [← hset, List.mem_toFinset, h2] at hin
      exact ⟨mem_sortDesc.mpr hin.1, hin.2⟩
  have hmem' : ∀ c, c ∈ pushed (sortDesc (neighbors g node)) v ↔ c = y ∨ c = x := by
    intro c
    rw [hmem c]
    tauto
  rcases nodup_pair_eq (pushed_nodup _ _) hmem' (fun e => hne e.symm) with heq | heq
  · exact heq
  · exfalso
    have hp : (pushed (sortDesc (neighbors g node)) v).Pairwise
        (fun a b => strLe b a = true) :=
      List.Pairwise.sublist (pushed_sublist _ _) (sortDesc_pairwise _)
    rw [heq] at hp
    have hyx : strLe y x = true :=
      (List.pairwise_cons.mp hp).1 y (List.mem_singleton.mpr rfl)
    rw [strLe_of_flip_false hxy] at hyx
    exact Bool.false_ne_true hyx

/-- C5: the tie-break law. For every graph and start node, whenever the
loop expands a node whose unvisited neighbors are exactly the two nodes
`x` and `y` with `x < y` lexicographically, BFS appends `x` to the
frontier before `y`, and DFS expands `x` before `y` (an `x` precedes a `y`
in the final expansion order, witnessed as a two-element sublist). -/
theorem c5_tie_break (g : Graph) (start x y node : String)
    (hxy : strLt x y = true) :
    (∀ i rest, (bfsStateAfter g start i).frontier = node :: rest →
      (unvisitedNeighbors g node (bfsStateAfter g start i).visited).toFinset = {x, y} →
      (bfsStateAfter g start (i + 1)).frontier = rest ++ [x, y]) ∧
    (∀ i rest, (dfsStateAfter g start i).frontier = rest ++ [node] →
      (unvisitedNeighbors g node (dfsStateAfter g start i).visited).toFinset = {x, y} →
      List.Sublist [x, y] (depth_first_search g start).1) := by
  constructor
  · intro i rest hfr hset
    have hstep : bfsStateAfter g start (i + 1) =
        bfsAux g 1 (bfsStateAfter g start i) := by
      rw [bfsStateAfter, bfsStateAfter, ← bfsAux_add]
    rcases hsa : bfsStateAfter g start i with ⟨fr, v, e, t⟩
    rw [hsa] at hfr hset hstep
    dsimp only at hfr hset
    subst hfr
    rw [hstep, bfsAux_succ_cons, bfsAux_zero, bfsStep_eq,
      pushed_pair_asc g node x y v hxy hset]
  · intro i rest hfr hset
    rcases hsa : dfsStateAfter g start i with ⟨fr, v, e, t⟩
    rw [hsa] at hfr hset
    dsimp only at hfr hset
    subst hfr
    have hpd := pushed_pair_desc g node x y v hxy hset
    have hs1 : dfsStateAfter g start (i + 1) =
        ⟨(rest ++ [y]) ++ [x], visitedAfter (sortDesc (neighbors g node)) v,
          e ++ [node], t ++ [⟨node, rest.reverse, v, joinArrow (e ++ [node])⟩]⟩ := by
      rw [dfsStateAfter, dfsAux_add g i 1, ← dfsStateAfter, hsa,
        dfsAux_succ_concat, dfsAux_zero, dfsStep_eq, hpd]
      simp [List.append_assoc]
    have hs2 : dfsStateAfter g start (i + 2) =
        dfsStep g x (rest ++ [y]) (visitedAfter (sortDesc (neighbors g node)) v)
          (e ++ [node]) (t ++ [⟨node, rest.reverse, v, joinArrow (e ++ [node])⟩]) := by
      rw [show i + 2 = (i + 1) + 1 from rfl, dfsStateAfter, dfsAux_add g (i + 1) 1,
        ← dfsStateAfter, hs1, dfsAux_succ_concat, dfsAux_zero]
    have hy2 : y ∈ (dfsStateAfter g start (i + 2)).frontier := by
      rw [hs2, dfsStep_eq]
      exact List.mem_append.mpr
        (Or.inl (List.mem_append.mpr (Or.inr (List.mem_singleton.mpr rfl))))
    have hexp2 : (dfsStateAfter g start (i + 2)).expanded = (e ++ [node]) ++ [x] := by
      rw [hs2, dfsStep_eq]
    have hne1 : (dfsStateAfter g start (i + 1)).frontier ≠ [] := by
      rw [hs1]
      simp
    have hcount := dfsAux_needed_le g start (i + 1) (initState start)
      (by rw [← dfsStateAfter]; exact hne1)
    rw [← dfsStateAfter, needed_init] at hcount
    have hfr1_len : 2 ≤ (dfsStateAfter g start (i + 1)).frontier.length := by
      rw [hs1]
      simp
    have hneed1 : 2 ≤ needed g start (dfsStateAfter g start (i + 1)) := by
      rw [needed]
      omega
    have hiB : i + 2 ≤ totalFuel g start := by omega
    have hfinal_decomp : dfsFinal g start =
        dfsAux g (totalFuel g start - (i + 2)) (dfsStateAfter g start (i + 2)) := by
      rw [dfsFinal, dfsStateAfter, dfsStateAfter]
      conv_rhs => rw [← dfsAux_add]
      rw [show (i + 2) + (totalFuel g start - (i + 2)) = totalFuel g start from by omega]
    obtain ⟨tl, htl, hmem⟩ := dfsAux_future g (totalFuel g start - (i + 2))
      (dfsStateAfter g start (i + 2))
      (by rw [← hfinal_decomp]; exact dfsFinal_frontier g start)
    have hytl : y ∈ tl := hmem y hy2
    have hfe : (depth_first_search g start).1 = ((e ++ [node]) ++ [x]) ++ tl := by
      show (dfsFinal g start).expanded = _
      rw [hfinal_decomp, htl, hexp2]
    rw [hfe, List.append_assoc]
    have h1 : List.Sublist [y] tl := List.singleton_sublist.mpr hytl
    have h2 : List.Sublist [x, y] (x :: tl) := h1.cons₂ x
    exact h2.trans (List.sublist_append_right _ _)

/-- C5 witness: the tie-break theorem applied to the fixture run at step 0,
where the expanded node `A` has exactly the unvisited neighbors `B` and
`D`. -/
theorem c5_tie_break_witness :
    (bfsStateAfter LAB1_GRAPH "A" 1).frontier = ["B", "D"] ∧
    List.Sublist ["B", "D"] (depth_first_search LAB1_GRAPH "A").1 := by
  have h := c5_tie_break LAB1_GRAPH "A" "B" "D" "A" (by decide)
  exact ⟨h.1 0 [] (by decide) (by decide), h.2 0 [] (by decide) (by decide)⟩

/-! ## The concrete fixture scenario -/

/-- C1 counterexample: on the fixture graph with start `A`, BFS does NOT
return the expansion order `A, D, B, C, E, G, H, F` claimed by the spec
(the code sorts neighbors alphabetically, so `B` is enqueued before `D`). -/
theorem c1_bfs_order_counterexample :
    (breadth_first_search LAB1_GRAPH "A").1 ≠
      ["A", "D", "B", "C", "E", "G", "H", "F"] := by decide

/-- C1 amended: on the fixture graph with start `A`, BFS returns the
expansion order `A, B, D, C, E, G, H, F` (alphabetical tie-break among
newly discovered siblings). -/
theorem c1_bfs_order_amended :
    (breadth_first_search LAB1_GRAPH "A").1 =
      ["A", "B", "D", "C", "E", "G", "H", "F"] := by decide

/-- C2 counterexample: on the fixture graph with start `A`, DFS does NOT
return the expansion order `A, D, C, B, E, H, G, F` claimed by the spec
(the code pushes neighbors in descending order so the alphabetically
smallest sibling `B` is on top of the stack and is expanded first). -/
theorem c2_dfs_order_counterexample :
    (depth_first_search LAB1_GRAPH "A").1 ≠
      ["A", "D", "C", "B", "E", "H", "G", "F"] := by decide

/-- C2 amended: on the fixture graph with start `A`, DFS returns the
expansion order `A, B, C, E, H, F, G, D`. -/
theorem c2_dfs_order_amended :
    (depth_first_search LAB1_GRAPH "A").1 =
      ["A", "B", "C", "E", "H", "F", "G", "D"] := by decide

/-- C3 counterexample: on the fixture graph with start `A`, the first
trace snapshots are NOT the claimed `expanded = A, frontier = [D, B],
visited = {A, D, B}, path = "A"`: the snapshot is taken before the
neighbors of `A` are processed, so its frontier is empty and its visited
set is `{A}`. -/
theorem c3_first_snapshot_counterexample :
    ¬ ((breadth_first_search LAB1_GRAPH "A").2.getD 0 emptyStep =
        ⟨"A", ["D", "B"], {"A", "D", "B"}, "A"⟩ ∧
      (depth_first_search LAB1_GRAPH "A").2.getD 0 emptyStep =
        ⟨"A", ["D", "B"], {"A", "D", "B"}, "A"⟩) := by decide

/-- C3 amended: on the fixture graph with start `A`, the first trace
snapshot of both algorithms has expanded node `A`, an empty frontier,
visited set `{A}` and process path `"A"`. -/
theorem c3_first_snapshot_amended :
    (breadth_first_search LAB1_GRAPH "A").2.getD 0 emptyStep =
      ⟨"A", [], {"A"}, "A"⟩ ∧
    (depth_first_search LAB1_GRAPH "A").2.getD 0 emptyStep =
      ⟨"A", [], {"A"}, "A"⟩ := by
  exact ⟨by decide, by decide⟩
